import Mathlib

/-!
Verification development for the vibe-cli agent core: the tool registry
(src/tools/registry.ts), the streaming model-query gateway (src/ai/query.ts)
and the agent orchestration loop with its tool-call extractor (src/agent.ts).

JavaScript strings are modelled as Lean strings over their code points
(`List Char`); this is exact for the ASCII data handled here.  JavaScript
numbers are modelled as rationals.  Asynchronous results are modelled as
values: a promise that fulfills is a returned value, a promise that rejects
is an explicit error constructor.
-/

/-- Characters written via code points to keep the source free of
delimiter-like literals. -/
def dquo : Char := Char.ofNat 34

def squo : Char := Char.ofNat 39

def btick : Char := Char.ofNat 96

def lbrace : Char := Char.ofNat 123

def rbrace : Char := Char.ofNat 125

def bslash : Char := Char.ofNat 92

/-- Whitespace recognized by the JavaScript regex class backslash-s,
restricted to the ASCII range (space, tab, newline, carriage return,
form feed, vertical tab). -/
def isWsChar (c : Char) : Bool :=
  c = ' ' || c = Char.ofNat 9 || c = Char.ofNat 10 || c = Char.ofNat 13 ||
  c = Char.ofNat 12 || c = Char.ofNat 11

def dropWs (cs : List Char) : List Char := cs.dropWhile isWsChar

/-- JavaScript String.prototype.trim restricted to ASCII whitespace. -/
def trimChars (cs : List Char) : List Char :=
  ((cs.dropWhile isWsChar).reverse.dropWhile isWsChar).reverse

def strTrim (s : String) : String := String.mk (trimChars s.data)

def strTake (s : String) (n : Nat) : String := String.mk (s.data.take n)

def listStartsWith : List Char → List Char → Bool
  | [], _ => true
  | _ :: _, [] => false
  | p :: ps, c :: cs => p = c && listStartsWith ps cs

/-- First index at which `needle` occurs in `cs` (JavaScript indexOf). -/
def findSubAux (needle : List Char) : List Char → Nat → Option Nat
  | [], i => if listStartsWith needle [] then some i else none
  | c :: cs, i =>
    if listStartsWith needle (c :: cs) then some i
    else findSubAux needle cs (i + 1)

def findSub (needle cs : List Char) : Option Nat := findSubAux needle cs 0

/-- JavaScript String.prototype.includes. -/
def jsIncludes (s : String) (sub : String) : Bool :=
  (findSub sub.data s.data).isSome

/-- JavaScript String.prototype.split on a single character. -/
def splitOnChar (c : Char) (cs : List Char) : List (List Char) :=
  cs.foldr
    (fun x acc =>
      match acc with
      | [] => [[]]
      | g :: gs => if x = c then [] :: (g :: gs) else (x :: g) :: gs)
    [[]]

def splitNl (s : String) : List String :=
  (splitOnChar (Char.ofNat 10) s.data).map String.mk

/-- Array.prototype.join with a newline separator. -/
def joinNl : List String → String
  | [] => ""
  | [s] => s
  | s :: rest => s ++ String.mk [Char.ofNat 10] ++ joinNl rest

def strStartsWith (s pre : String) : Bool := listStartsWith pre.data s.data

/-- Replace every single quote by a double quote
(the source's replace of apostrophes). -/
def replaceSquotes (cs : List Char) : List Char :=
  cs.map (fun c => if c = squo then dquo else c)

def headIs (c : Char) : List Char → Bool
  | [] => false
  | x :: _ => x = c

def isDigitCh (c : Char) : Bool := '0' ≤ c && c ≤ '9'

def isWordChar (c : Char) : Bool :=
  ('a' ≤ c && c ≤ 'z') || ('A' ≤ c && c ≤ 'Z') || isDigitCh c || c = '_'

def toLowerCh (c : Char) : Char :=
  if 'A' ≤ c && c ≤ 'Z' then Char.ofNat (c.toNat + 32) else c

/-- Case-insensitive prefix test (for the i-flagged regex). -/
def ciStartsWith (pat : List Char) (cs : List Char) : Bool :=
  listStartsWith pat ((cs.take pat.length).map toLowerCh)

def quoteWrap (s : String) : List Char := dquo :: s.data ++ [dquo]

/-- JSON values as produced by JSON.parse.  Numbers are rationals. -/
inductive JsonValue where
  | null : JsonValue
  | bool (b : Bool) : JsonValue
  | num (q : ℚ) : JsonValue
  | str (s : String) : JsonValue
  | arr (xs : List JsonValue) : JsonValue
  | obj (kvs : List (String × JsonValue)) : JsonValue

/-- JavaScript truthiness of a JSON value. -/
def jsTruthy : JsonValue → Bool
  | .null => false
  | .bool b => b
  | .num q => q ≠ 0
  | .str s => s ≠ ""
  | .arr _ => true
  | .obj _ => true

/-- Property access on a parsed value; absent fields read as undefined. -/
def JsonValue.getField : JsonValue → String → Option JsonValue
  | .obj kvs, k => (kvs.filter (fun p => p.1 = k)).getLast?.map Prod.snd
  | _, _ => none

/-- Truthiness of a possibly-undefined value. -/
def truthyO : Option JsonValue → Bool
  | none => false
  | some v => jsTruthy v

def JsonValue.isArr : JsonValue → Bool
  | .arr _ => true
  | _ => false

def JsonValue.arrItems : JsonValue → List JsonValue
  | .arr xs => xs
  | _ => []

/-- Insert a member into an object under construction: JavaScript keeps the
original position of a repeated key and overwrites its value. -/
def objInsert (kvs : List (String × JsonValue)) (k : String) (v : JsonValue) :
    List (String × JsonValue) :=
  if kvs.any (fun p => p.1 = k) then
    kvs.map (fun p => if p.1 = k then (k, v) else p)
  else kvs ++ [(k, v)]

/-- JSON whitespace (exactly space, tab, newline, carriage return). -/
def isJsonWs (c : Char) : Bool :=
  c = ' ' || c = Char.ofNat 9 || c = Char.ofNat 10 || c = Char.ofNat 13

def dropWsJ (cs : List Char) : List Char := cs.dropWhile isJsonWs

def unescapeCh (c : Char) : Option Char :=
  if c = dquo then some dquo
  else if c = bslash then some bslash
  else if c = '/' then some '/'
  else if c = 'b' then some (Char.ofNat 8)
  else if c = 'f' then some (Char.ofNat 12)
  else if c = 'n' then some (Char.ofNat 10)
  else if c = 'r' then some (Char.ofNat 13)
  else if c = 't' then some (Char.ofNat 9)
  else none

def hexVal (c : Char) : Option Nat :=
  if isDigitCh c then some (c.toNat - 48)
  else if 'a' ≤ c && c ≤ 'f' then some (c.toNat - 87)
  else if 'A' ≤ c && c ≤ 'F' then some (c.toNat - 55)
  else none

/-- Parse the body of a JSON string after the opening quote; returns the
decoded characters and the input remaining after the closing quote. -/
def pString (fuel : Nat) (cs : List Char) : Option (List Char × List Char) :=
  match fuel with
  | 0 => none
  | fuel + 1 =>
    match cs with
    | [] => none
    | c :: rest =>
      if c = dquo then some ([], rest)
      else if c = bslash then
        match rest with
        | [] => none
        | e :: rest2 =>
          if e = 'u' then
            match rest2 with
            | h1 :: h2 :: h3 :: h4 :: rest3 =>
              match hexVal h1, hexVal h2, hexVal h3, hexVal h4 with
              | some a, some b, some c2, some d =>
                (pString fuel rest3).map
                  (fun p => (Char.ofNat (a * 4096 + b * 256 + c2 * 16 + d) :: p.1, p.2))
              | _, _, _, _ => none
            | _ => none
          else
            match unescapeCh e with
            | some ch => (pString fuel rest2).map (fun p => (ch :: p.1, p.2))
            | none => none
      else if c.toNat < 32 then none
      else (pString fuel rest).map (fun p => (c :: p.1, p.2))

def digitsToNat (ds : List Char) : Nat :=
  ds.foldl (fun a c => a * 10 + (c.toNat - 48)) 0

def mkNum (neg : Bool) (ip fp : List Char) (esign : Int) (ed : List Char) : ℚ :=
  let mant : ℚ := (digitsToNat (ip ++ fp) : ℚ) / ((10 : ℚ) ^ fp.length)
  let scaled : ℚ := mant * (10 : ℚ) ^ (esign * (digitsToNat ed : Int))
  if neg then -scaled else scaled

def pExponent (neg : Bool) (ip fp : List Char) (cs : List Char) :
    Option (JsonValue × List Char) :=
  match cs with
  | e :: t =>
    if e = 'e' || e = 'E' then
      let signAndRest : Int × List Char :=
        match t with
        | s :: u => if s = '+' then (1, u) else if s = '-' then (-1, u) else (1, t)
        | [] => (1, t)
      let ed := signAndRest.2.takeWhile isDigitCh
      if ed = [] then none
      else some (.num (mkNum neg ip fp signAndRest.1 ed), signAndRest.2.drop ed.length)
    else some (.num (mkNum neg ip fp 1 []), cs)
  | [] => some (.num (mkNum neg ip fp 1 []), [])

/-- Strict JSON number grammar. -/
def pNumber (cs : List Char) : Option (JsonValue × List Char) :=
  let negAndRest : Bool × List Char :=
    match cs with
    | c :: t => if c = '-' then (true, t) else (false, cs)
    | [] => (false, cs)
  let cs1 := negAndRest.2
  let ip := cs1.takeWhile isDigitCh
  if ip = [] then none
  else if ip.length > 1 && headIs '0' ip then none
  else
    let cs2 := cs1.drop ip.length
    match cs2 with
    | '.' :: t =>
      let fp := t.takeWhile isDigitCh
      if fp = [] then none
      else pExponent negAndRest.1 ip fp (t.drop fp.length)
    | _ => pExponent negAndRest.1 ip [] cs2

mutual

/-- Strict JSON value grammar, as accepted by JSON.parse. -/
def pValue (fuel : Nat) (cs : List Char) : Option (JsonValue × List Char) :=
  match fuel with
  | 0 => none
  | fuel + 1 =>
    let cs := dropWsJ cs
    match cs with
    | [] => none
    | c :: rest =>
      if c = dquo then (pString (rest.length + 1) rest).map (fun p => (.str (String.mk p.1), p.2))
      else if c = lbrace then
        match dropWsJ rest with
        | c2 :: rest2 => if c2 = rbrace then some (.obj [], rest2) else pMembers fuel (dropWsJ rest) []
        | [] => none
      else if c = '[' then
        match dropWsJ rest with
        | ']' :: rest2 => some (.arr [], rest2)
        | _ => pItems fuel (dropWsJ rest) []
      else if listStartsWith ['t', 'r', 'u', 'e'] cs then some (.bool true, cs.drop 4)
      else if listStartsWith ['f', 'a', 'l', 's', 'e'] cs then some (.bool false, cs.drop 5)
      else if listStartsWith ['n', 'u', 'l', 'l'] cs then some (.null, cs.drop 4)
      else pNumber cs

/-- Members of a JSON object after the opening brace. -/
def pMembers (fuel : Nat) (cs : List Char) (acc : List (String × JsonValue)) :
    Option (JsonValue × List Char) :=
  match fuel with
  | 0 => none
  | fuel + 1 =>
    match dropWsJ cs with
    | [] => none
    | c :: rest =>
      if c = dquo then
        match pString (rest.length + 1) rest with
        | none => none
        | some (k, r1) =>
          match dropWsJ r1 with
          | ':' :: r3 =>
            match pValue fuel r3 with
            | none => none
            | some (v, r4) =>
              let acc2 := objInsert acc (String.mk k) v
              match dropWsJ r4 with
              | ',' :: r6 => pMembers fuel r6 acc2
              | c2 :: r6 => if c2 = rbrace then some (.obj acc2, r6) else none
              | [] => none
          | _ => none
      else none

/-- Items of a JSON array after the opening bracket. -/
def pItems (fuel : Nat) (cs : List Char) (acc : List JsonValue) :
    Option (JsonValue × List Char) :=
  match fuel with
  | 0 => none
  | fuel + 1 =>
    match pValue fuel cs with
    | none => none
    | some (v, r1) =>
      match dropWsJ r1 with
      | ',' :: r2 => pItems fuel r2 (acc ++ [v])
      | ']' :: r2 => some (.arr (acc ++ [v]), r2)
      | _ => none

end

/-- JSON.parse: strict parse of the whole string, rejecting trailing input. -/
def jsonParse (s : String) : Option JsonValue :=
  match pValue (2 * s.data.length + 16) s.data with
  | some (v, rest) => if dropWsJ rest = [] then some v else none
  | none => none

def escapeJsonChar (c : Char) : List Char :=
  if c = dquo then [bslash, dquo]
  else if c = bslash then [bslash, bslash]
  else if c = Char.ofNat 10 then [bslash, 'n']
  else if c = Char.ofNat 13 then [bslash, 'r']
  else if c = Char.ofNat 9 then [bslash, 't']
  else if c = Char.ofNat 8 then [bslash, 'b']
  else if c = Char.ofNat 12 then [bslash, 'f']
  else if c.toNat < 32 then
    let hexDig := fun (n : Nat) => if n < 10 then Char.ofNat (48 + n) else Char.ofNat (87 + n - 10)
    [bslash, 'u', '0', '0', hexDig (c.toNat / 16), hexDig (c.toNat % 16)]
  else [c]

def quoteJsonStr (s : String) : String :=
  String.mk (dquo :: (s.data.foldr (fun c acc => escapeJsonChar c ++ acc) [dquo]))

/-- Rendering of a rational; exact for the integral values that occur here. -/
def ratRepr (q : ℚ) : String :=
  if q.den = 1 then toString q.num else toString q.num ++ "/" ++ toString q.den

mutual

/-- JSON.stringify with no spacing argument. -/
def jsonStringify : JsonValue → String
  | .null => "null"
  | .bool true => "true"
  | .bool false => "false"
  | .num q => ratRepr q
  | .str s => quoteJsonStr s
  | .arr xs => "[" ++ stringifyItems xs ++ "]"
  | .obj kvs => String.mk [lbrace] ++ stringifyMembers kvs ++ String.mk [rbrace]

def stringifyItems : List JsonValue → String
  | [] => ""
  | [x] => jsonStringify x
  | x :: rest => jsonStringify x ++ "," ++ stringifyItems rest

def stringifyMembers : List (String × JsonValue) → String
  | [] => ""
  | [kv] => quoteJsonStr kv.1 ++ ":" ++ jsonStringify kv.2
  | kv :: rest => quoteJsonStr kv.1 ++ ":" ++ jsonStringify kv.2 ++ "," ++ stringifyMembers rest

end

/-!
Regex machinery of the extractor (src/agent.ts).  Each JavaScript regex used
by processToolCallsInText is implemented as a dedicated matcher with the same
leftmost-match and laziness behaviour.
-/

/-- Try a positional matcher at every position, leftmost match first
(regex exec semantics). -/
def scanFirst (f : List Char → Option α) : List Char → Option α
  | [] => f []
  | c :: cs =>
    match f (c :: cs) with
    | some r => some r
    | none => scanFirst f cs

/-- Fenced code blocks: the g-flagged exec loop over the pattern
three-backticks, optional json tag, lazy body, three-backticks.
Returns the raw capture groups (body between the whitespace run after the
opening fence and the closing fence), in text order. -/
def extractCodeBlocks (fuel : Nat) (cs : List Char) : List (List Char) :=
  match fuel with
  | 0 => []
  | fuel + 1 =>
    match findSub [btick, btick, btick] cs with
    | none => []
    | some i =>
      let rest := cs.drop (i + 3)
      let rest1 := if listStartsWith ['j', 's', 'o', 'n'] rest then rest.drop 4 else rest
      let rest2 := dropWs rest1
      match findSub [btick, btick, btick] rest2 with
      | none => []
      | some j => rest2.take j :: extractCodeBlocks fuel (rest2.drop (j + 3))

/-- Lazy capture of an object body terminated by a closing brace that is
followed by optional whitespace and a closing bracket (the
tool underscore calls array regex). -/
def findLazyBraceBracket : List Char → Option (List Char)
  | [] => none
  | c :: cs =>
    if c = rbrace && headIs ']' (dropWs cs) then some []
    else (findLazyBraceBracket cs).map (c :: ·)

/-- Positional matcher for the case-insensitive pattern
tool underscore calls, colon, bracket, then a lazily captured brace group. -/
def matchToolCallsArr (cs : List Char) : Option (List Char) :=
  if ciStartsWith "tool_calls".data cs then
    match dropWs (cs.drop 10) with
    | ':' :: r2 =>
      match dropWs r2 with
      | '[' :: r4 =>
        match dropWs r4 with
        | c :: r6 =>
          if c = lbrace then
            (findLazyBraceBracket r6).map (fun mid => lbrace :: (mid ++ [rbrace]))
          else none
        | [] => none
      | _ => none
    | _ => none
  else none

def execToolCallsArray (cs : List Char) : Option (List Char) :=
  scanFirst matchToolCallsArr cs

/-- Positional matcher for a quoted key followed by a quoted nonempty value. -/
def matchQuotedField (key : List Char) (cs : List Char) : Option (List Char) :=
  if listStartsWith (dquo :: key ++ [dquo]) cs then
    match dropWs (cs.drop (key.length + 2)) with
    | ':' :: r2 =>
      match dropWs r2 with
      | q :: r3 =>
        if q = dquo then
          let body := r3.takeWhile (fun c => c ≠ dquo)
          if body ≠ [] && headIs dquo (r3.drop body.length) then some body else none
        else none
      | [] => none
    | _ => none
  else none

def findQuotedField (key : String) (cs : List Char) : Option String :=
  (scanFirst (matchQuotedField key.data) cs).map String.mk

/-- Lazy capture of an object body terminated by a closing brace followed by
a comma or by optional whitespace and the end of input (the params regex of
strategy one). -/
def findLazyBraceCommaEnd : List Char → Option (List Char)
  | [] => none
  | c :: cs =>
    if c = rbrace && (headIs ',' cs || dropWs cs = []) then some []
    else (findLazyBraceCommaEnd cs).map (c :: ·)

def matchParamsField (cs : List Char) : Option (List Char) :=
  if listStartsWith (quoteWrap "params") cs then
    match dropWs (cs.drop 8) with
    | ':' :: r2 =>
      match dropWs r2 with
      | b :: r3 =>
        if b = lbrace then
          (findLazyBraceCommaEnd r3).map (fun mid => lbrace :: (mid ++ [rbrace]))
        else none
      | [] => none
    | _ => none
  else none

def execParamsField (cs : List Char) : Option (List Char) :=
  scanFirst matchParamsField cs

/-- Positional matcher for the strategy-three params part: quoted params key,
colon, then a brace group captured lazily up to the first closing brace.
Returns the capture and the remaining input after it. -/
def matchParamsM3 (cs : List Char) : Option (List Char × List Char) :=
  if listStartsWith (quoteWrap "params") cs then
    match dropWs (cs.drop 8) with
    | ':' :: r2 =>
      match dropWs r2 with
      | b :: r3 =>
        if b = lbrace then
          let mid := r3.takeWhile (fun c => c ≠ rbrace)
          if headIs rbrace (r3.drop mid.length) then
            some (lbrace :: (mid ++ [rbrace]), r3.drop (mid.length + 1))
          else none
        else none
      | [] => none
    | _ => none
  else none

/-- The lazy gap of the strategy-three regex: first params group at or after
this position. -/
def findParamsAfter : List Char → Option (List Char × List Char)
  | [] => none
  | c :: cs =>
    match matchParamsM3 (c :: cs) with
    | some r => some r
    | none => findParamsAfter cs

/-- Positional matcher for the full strategy-three pattern: quoted name key
and value, lazy gap, params group.  Returns name, params text, and the
remaining input after the match. -/
def matchM3At (cs : List Char) : Option ((List Char × List Char) × List Char) :=
  if listStartsWith (quoteWrap "name") cs then
    match dropWs (cs.drop 6) with
    | ':' :: r2 =>
      match dropWs r2 with
      | q :: r3 =>
        if q = dquo then
          let body := r3.takeWhile (fun c => c ≠ dquo)
          if body ≠ [] && headIs dquo (r3.drop body.length) then
            (findParamsAfter (r3.drop (body.length + 1))).map (fun p => ((body, p.1), p.2))
          else none
        else none
      | [] => none
    | _ => none
  else none

/-- The g-flagged exec loop of strategy three: successive non-overlapping
matches, the scan resuming after each match end. -/
def m3Scan (fuel : Nat) (cs : List Char) : List (String × List Char) :=
  match fuel with
  | 0 => []
  | fuel + 1 =>
    match cs with
    | [] => []
    | _ :: rest =>
      match matchM3At cs with
      | some ((n, p), after) => (String.mk n, p) :: m3Scan fuel after
      | none => m3Scan fuel rest

/-- Positional matcher for the loose path pattern of strategy three: quoted
path key, colon, optional quote, then one or more characters other than
quote, comma and closing brace. -/
def matchLoosePath (cs : List Char) : Option (List Char) :=
  if listStartsWith (quoteWrap "path") cs then
    match dropWs (cs.drop 6) with
    | ':' :: r2 =>
      let r3 := dropWs r2
      let r4 := match r3 with
        | q :: t => if q = dquo then t else r3
        | [] => r3
      let body := r4.takeWhile (fun c => c ≠ dquo && c ≠ ',' && c ≠ rbrace)
      if body ≠ [] then some body else none
    | _ => none
  else none

def findLoosePath (cs : List Char) : Option String :=
  (scanFirst matchLoosePath cs).map String.mk

/-- The global replace that auto-quotes bare keys: every maximal word-character
run immediately followed by a colon is wrapped in quotes. -/
def autoQuoteKeys (fuel : Nat) (cs : List Char) : List Char :=
  match fuel with
  | 0 => cs
  | fuel + 1 =>
    match cs with
    | [] => []
    | c :: rest =>
      if isWordChar c then
        let run := cs.takeWhile isWordChar
        let after := cs.drop run.length
        match after with
        | ':' :: tail => (dquo :: run ++ [dquo, ':']) ++ autoQuoteKeys fuel tail
        | _ => run ++ autoQuoteKeys fuel after
      else c :: autoQuoteKeys fuel rest

/-!
Tool registry model (src/tools/registry.ts and src/tools/interface.ts).
A tool executor is a function from the argument object to the awaited
outcome of its execute promise: a fulfilled ToolResult, or a rejection
(synchronous throw and asynchronous rejection are the same awaited outcome),
distinguishing ToolError instances because the catch clause rethrows them
unchanged.
-/

/-- The ToolResult shape of src/tools/interface.ts: success flag, optional
data, optional error message. -/
structure ToolResultV where
  success : Bool
  data : Option JsonValue
  error : Option String

/-- Awaited outcome of a tool executor. -/
inductive ExecOutcome where
  | ok (r : ToolResultV) : ExecOutcome
  | thrownToolError (msg : String) : ExecOutcome
  | thrown (msg : String) : ExecOutcome

structure Tool where
  name : String
  description : String
  execute : JsonValue → ExecOutcome

/-- The registry's Map of tools, in insertion order with unique names. -/
def regHas (reg : List Tool) (name : String) : Bool :=
  reg.any (fun t => t.name = name)

def regGet (reg : List Tool) (name : String) : Option Tool :=
  reg.find? (fun t => t.name = name)

/-- Map.prototype.set: overwrite in place, or append a new entry. -/
def regSet (reg : List Tool) (t : Tool) : List Tool :=
  if regHas reg t.name then reg.map (fun u => if u.name = t.name then t else u)
  else reg ++ [t]

/-- ToolRegistry.register: last write wins; the boolean reports whether the
already-registered warning was emitted by this call. -/
def ToolRegistry.register (reg : List Tool) (t : Tool) : List Tool × Bool :=
  (regSet reg t, regHas reg t.name)

/-- Outcome of the execute promise of ToolRegistry.execute: fulfilled with
the result data, or rejected with a ToolError carrying this message. -/
inductive ExecResult where
  | value (v : Option JsonValue) : ExecResult
  | toolError (msg : String) : ExecResult

def ExecResult.isValue : ExecResult → Bool
  | .value _ => true
  | .toolError _ => false

/-- JavaScript or-default on an optional string (empty string is falsy). -/
def jsOrString (o : Option String) (d : String) : String :=
  match o with
  | none => d
  | some s => if s = "" then d else s

/-- ToolRegistry.execute.  The returned number counts executor invocations.
An absent name rejects before any invocation; a result with success false is
turned into a ToolError rejection inside the try and rethrown unchanged by
the catch; any other thrown error is wrapped in a new ToolError. -/
def ToolRegistry.execute (reg : List Tool) (name : String) (args : JsonValue) :
    ExecResult × Nat :=
  match regGet reg name with
  | none => (.toolError ("Tool " ++ String.mk (quoteWrap name) ++ " not found"), 0)
  | some tool =>
    match tool.execute args with
    | .ok r =>
      if r.success then (.value r.data, 1)
      else (.toolError (jsOrString r.error "Unknown error"), 1)
    | .thrownToolError msg => (.toolError msg, 1)
    | .thrown msg =>
      (.toolError ("Error executing tool " ++ String.mk (quoteWrap name) ++ ": " ++ msg), 1)

/-!
Model query gateway (src/ai/query.ts).  The streaming body of queryAI is a
fold over the raw chunks of the response stream; each chunk is split on
newlines, blank events are dropped, and each event is JSON-parsed.  Parse
errors and events with a truthy error field are skipped (the throw for a
truthy error is caught by the same catch clause as parse errors).  The
promise settles once: at the first truthy done event, or at stream end.
Message contents are modelled as strings.
-/

structure StreamState where
  fullResponse : String
  delivered : List String
  doneSignals : Nat
  settled : Option (Except String String)

def initStream : StreamState := ⟨"", [], 0, none⟩

def settleResolve (st : StreamState) (s : String) : StreamState :=
  match st.settled with
  | none => { st with settled := some (.ok s) }
  | some _ => st

def settleReject (st : StreamState) (m : String) : StreamState :=
  match st.settled with
  | none => { st with settled := some (.error m) }
  | some _ => st

/-- The content read from an event: data.message and then content, with a
non-string or absent content reading as the empty string. -/
def contentOf (data : JsonValue) : String :=
  match data.getField "message" with
  | some m =>
    match m.getField "content" with
    | some (.str s) => s
    | _ => ""
  | none => ""

def processEvent (st : StreamState) (ev : String) : StreamState :=
  match jsonParse ev with
  | none => st
  | some data =>
    if truthyO (data.getField "error") then st
    else
      let content := contentOf data
      let st1 :=
        if content ≠ "" then
          { st with fullResponse := st.fullResponse ++ content,
                    delivered := st.delivered ++ [content] }
        else st
      if truthyO (data.getField "done") then
        let st2 := { st1 with doneSignals := st1.doneSignals + 1 }
        settleResolve st2 st2.fullResponse
      else st1

def processChunk (st : StreamState) (chunk : String) : StreamState :=
  ((splitNl chunk).filter (fun e => e ≠ "")).foldl processEvent st

/-- The stream phase of queryAI: all data chunks in arrival order, then
either the error event (rejecting with the stream error) or the end event,
which resolves with the accumulated text when nonempty and rejects with
the no-response error otherwise. -/
def runStream (chunks : List String) (streamError : Bool) : StreamState :=
  let st := chunks.foldl processChunk initStream
  if streamError then settleReject st "Stream error"
  else if st.fullResponse ≠ "" then
    let st1 := { st with doneSignals := st.doneSignals + 1 }
    settleResolve st1 st1.fullResponse
  else settleReject st "Stream ended without response"

/-- The events of a chunk list in processing order. -/
def allEvents (chunks : List String) : List String :=
  chunks.flatMap (fun c => (splitNl c).filter (fun e => e ≠ ""))

/-- A done event: one that parses, is not skipped for a truthy error field,
and has a truthy done field. -/
def isDoneEvent (ev : String) : Bool :=
  match jsonParse ev with
  | none => false
  | some d => !truthyO (d.getField "error") && truthyO (d.getField "done")

/-!
Request construction of queryAI (src/ai/query.ts lines 76 to 88): option
defaults are applied with JavaScript or, so any falsy value, including an
explicit zero, selects the default.
-/

/-- The QueryOptions shape of src/ai/query.ts.  The tools list is tracked
as a presence flag; debug mode only affects console output and is omitted. -/
structure ReqOpts where
  model : Option String
  temperature : Option ℚ
  topP : Option ℚ
  format : Option String
  hasTools : Bool
  toolChoice : Option String

/-- JavaScript or-default on an optional number (zero is falsy). -/
def jsOrNum (o : Option ℚ) (d : ℚ) : ℚ :=
  match o with
  | none => d
  | some x => if x = 0 then d else x

structure RequestData where
  model : String
  stream : Bool
  temperature : ℚ
  top_p : ℚ
  num_ctx : Nat
deriving DecidableEq

/-- The requestData object built by queryAI before dispatch. -/
def buildRequestData (configModel : String) (options : Option ReqOpts) : RequestData :=
  { model := jsOrString (options.bind (fun o => o.model)) configModel
    stream := true
    temperature := jsOrNum (options.bind (fun o => o.temperature)) (7 / 10)
    top_p := jsOrNum (options.bind (fun o => o.topP)) (9 / 10)
    num_ctx := 4096 }

/-!
Agent orchestration model (src/agent.ts).  The model query is an oracle
indexed by the number of queries issued so far; an oracle answer is either
the resolved full text or a rejection (err carries the display string of the
thrown error).  The state records the conversation, the options of every
query issued, and the trace of registry executions.  A boolean result
component reports whether the modelled code path rejected (threw).
-/

inductive Role where
  | system : Role
  | user : Role
  | assistant : Role
deriving DecidableEq

structure Message where
  role : Role
  content : String
deriving DecidableEq

inductive QueryOutcome where
  | ok (text : String) : QueryOutcome
  | err (display : String) : QueryOutcome

def QueryOutcome.isOk : QueryOutcome → Bool
  | .ok _ => true
  | .err _ => false

structure AgentState where
  registry : List Tool
  oracle : Nat → QueryOutcome
  qIdx : Nat
  queries : List ReqOpts
  messages : List Message
  execTrace : List (String × JsonValue)

def pushMsg (st : AgentState) (r : Role) (c : String) : AgentState :=
  { st with messages := st.messages ++ [⟨r, c⟩] }

/-- One queryAI call: consumes the next oracle answer and records the
options it was issued with. -/
def issueQuery (st : AgentState) (opts : ReqOpts) : AgentState × QueryOutcome :=
  ({ st with qIdx := st.qIdx + 1, queries := st.queries ++ [opts] }, st.oracle st.qIdx)

/-- Options of the two plain queryAI call sites inside processToolCall. -/
def plainOpts : ReqOpts := ⟨none, none, none, none, false, none⟩

/-- Options of the initial free-text query (temperature 0.2). -/
def primaryOpts : ReqOpts := ⟨none, some (2 / 10), none, none, false, none⟩

/-- Options of the directed fallback query (json format, tools attached,
tool choice auto, temperature 0.1). -/
def fallbackOpts : ReqOpts := ⟨none, some (1 / 10), none, some "json", true, some "auto"⟩

/-- The condensed view of a serialized tool result: inputs longer than 500
characters are cut to their first 490 characters plus the truncation
suffix. -/
def condenseResult (s : String) : String :=
  if s.length > 500 then strTake s 490 ++ "... (truncated)" else s

/-- The assistant acknowledgment pushed after a successful execution. -/
def ackMessage (name : String) : String :=
  "I" ++ String.mk [squo] ++ "ll check that for you using the " ++ name ++ " tool."

/-- What the catch clause of processToolCall renders for the caught error:
a ToolError shows its message, anything else its display string. -/
inductive Thrown where
  | toolErr (msg : String) : Thrown
  | other (display : String) : Thrown

def thrownText : Thrown → String
  | .toolErr m => m
  | .other d => d

/-- Display string of the TypeError raised when JSON.stringify returned
undefined (a successful result with no data) and length is read from it. -/
def undefinedLengthError : String :=
  "TypeError: Cannot read properties of undefined (reading " ++
    String.mk [squo] ++ "length" ++ String.mk [squo] ++ ")"

/-- The catch clause of processToolCall: push the Tool Error user message,
query for the error response, and push it; a failure of that query
propagates out of processToolCall. -/
def processToolCallCatch (st : AgentState) (e : Thrown) : AgentState × Bool :=
  let st1 := pushMsg st .user ("Tool Error:\n\n" ++ thrownText e)
  let q := issueQuery st1 plainOpts
  match q.2 with
  | .ok t => (pushMsg q.1 .assistant t, false)
  | .err _ => (q.1, true)

/-- AgentRepl.processToolCall.  A falsy name or a name absent from the
registry only logs to the console and returns; otherwise the registry
executes, the acknowledgment and Tool Result messages are pushed, and a
follow-up query is issued.  Any rejection inside the try lands in the
catch clause. -/
def processToolCall (st : AgentState) (toolName : JsonValue) (parameters : JsonValue) :
    AgentState × Bool :=
  match toolName with
  | .str name =>
    if name = "" || !regHas st.registry name then (st, false)
    else
      let st1 := { st with execTrace := st.execTrace ++ [(name, parameters)] }
      match (ToolRegistry.execute st.registry name parameters).1 with
      | .value v =>
        match v.map jsonStringify with
        | none => processToolCallCatch st1 (.other undefinedLengthError)
        | some s =>
          let resultContent := condenseResult s
          let st2 := pushMsg st1 .assistant (ackMessage name)
          let st3 := pushMsg st2 .user ("Tool Result (" ++ name ++ "):\n\n" ++ resultContent)
          let q := issueQuery st3 plainOpts
          match q.2 with
          | .ok t => (pushMsg q.1 .assistant t, false)
          | .err d => processToolCallCatch q.1 (.other d)
      | .toolError m => processToolCallCatch st1 (.toolErr m)
  | _ => (st, false)

/-!
The three extraction methods of AgentRepl.processToolCallsInText.  Each
helper returns the updated state and whether the method returned true.
Rejections of processToolCall are swallowed by the try/catch layers of the
methods, so extraction itself never rejects; a swallowed rejection makes the
enclosing loop continue instead of returning.
-/

/-- Method-one handling of one fenced block: exec the tool-underscore-calls
regex on the trimmed content, extract name and params, parse the params with
single quotes replaced, and execute; on a parse failure or a rejection of
processToolCall, fall back to the strict quoted path field of the params
string. -/
def m1PathFallback (st : AgentState) (name : String) (paramsStr : List Char) :
    AgentState × Bool :=
  match findQuotedField "path" paramsStr with
  | some path =>
    let r := processToolCall st (.str name) (.obj [("path", .str path)])
    (r.1, !r.2)
  | none => (st, false)

def m1Block (st : AgentState) (block : List Char) : AgentState × Bool :=
  let codeContent := trimChars block
  match execToolCallsArray codeContent with
  | none => (st, false)
  | some g1 =>
    let toolCall := trimChars g1
    match findQuotedField "name" toolCall, execParamsField toolCall with
    | some name, some params0 =>
      let paramsStr := replaceSquotes params0
      match jsonParse (String.mk paramsStr) with
      | some params =>
        let r := processToolCall st (.str name) params
        if r.2 then m1PathFallback r.1 name paramsStr else (r.1, true)
      | none => m1PathFallback st name paramsStr
    | _, _ => (st, false)

def m1Loop (st : AgentState) : List (List Char) → AgentState × Bool
  | [] => (st, false)
  | b :: bs =>
    let r := m1Block st b
    if r.2 then (r.1, true) else m1Loop r.1 bs

/-- Method two: the first array entry with truthy name and params fields. -/
def m2FirstTruthy : List JsonValue → Option (JsonValue × JsonValue)
  | [] => none
  | c :: cs =>
    match c.getField "name", c.getField "params" with
    | some n, some p =>
      if jsTruthy n && jsTruthy p then some (n, p) else m2FirstTruthy cs
    | _, _ => m2FirstTruthy cs

/-- Method two's inner loop over candidate lengths j (up to ten lines),
joining the slice, brace-wrapping when needed, and parsing; a rejection of
processToolCall is caught silently and the loop continues. -/
def m2TryJ (st : AgentState) (lines : List String) (i j fuel : Nat) :
    AgentState × Bool :=
  match fuel with
  | 0 => (st, false)
  | fuel + 1 =>
    let potentialJson := joinNl ((lines.drop i).take j)
    let jsonToTry :=
      if strStartsWith potentialJson (String.mk [lbrace]) then potentialJson
      else String.mk [lbrace] ++ potentialJson ++ String.mk [rbrace]
    let tryNext := fun (st2 : AgentState) => m2TryJ st2 lines i (j + 1) fuel
    match jsonParse jsonToTry with
    | some parsed =>
      match parsed.getField "tool_calls" with
      | some tc =>
        if jsTruthy tc && tc.isArr then
          match m2FirstTruthy tc.arrItems with
          | some (n, p) =>
            let r := processToolCall st n p
            if r.2 then tryNext r.1 else (r.1, true)
          | none => tryNext st
        else tryNext st
      | none => tryNext st
    | none => tryNext st

/-- Method two's line loop. -/
def m2Lines (st : AgentState) (lines : List String) (i fuel : Nat) :
    AgentState × Bool :=
  match fuel with
  | 0 => (st, false)
  | fuel + 1 =>
    match lines.get? i with
    | none => (st, false)
    | some l =>
      let line := strTrim l
      if jsIncludes line "tool_calls" || jsIncludes line (String.mk (quoteWrap "name")) ||
          jsIncludes line (String.mk (quoteWrap "params")) then
        let r := m2TryJ st lines i 1 10
        if r.2 then (r.1, true) else m2Lines r.1 lines (i + 1) fuel
      else m2Lines st lines (i + 1) fuel

def m2 (st : AgentState) (text : String) : AgentState × Bool :=
  if jsIncludes text "tool_calls" &&
      (jsIncludes text (String.mk (quoteWrap "name")) ||
       jsIncludes text (String.mk (quoteWrap "params"))) then
    let lines := splitNl text
    m2Lines st lines 0 lines.length
  else (st, false)

/-- Method three's handling of one regex match: fix quotes and bare keys and
parse; on failure or on a rejection of the first execution, fall back to the
loose path extraction on the original params text. -/
def m3Fallback (st : AgentState) (name : String) (paramsText : List Char) :
    AgentState × Bool :=
  match findLoosePath paramsText with
  | some path =>
    let r := processToolCall st (.str name) (.obj [("path", .str path)])
    (r.1, !r.2)
  | none => (st, false)

def m3Step (st : AgentState) (name : String) (paramsText : List Char) :
    AgentState × Bool :=
  let fixedParams := autoQuoteKeys (replaceSquotes paramsText).length (replaceSquotes paramsText)
  match jsonParse (String.mk fixedParams) with
  | some params =>
    let r := processToolCall st (.str name) params
    if r.2 then m3Fallback r.1 name paramsText else (r.1, true)
  | none => m3Fallback st name paramsText

def m3Loop (st : AgentState) : List (String × List Char) → AgentState × Bool
  | [] => (st, false)
  | (name, paramsText) :: rest =>
    let r := m3Step st name paramsText
    if r.2 then (r.1, true) else m3Loop r.1 rest

def m3 (st : AgentState) (text : String) : AgentState × Bool :=
  m3Loop st (m3Scan text.data.length text.data)

/-- AgentRepl.processToolCallsInText: method one over the fenced blocks,
then method two, then method three; the first method to return true wins. -/
def processToolCallsInText (st : AgentState) (text : String) : AgentState × Bool :=
  let r1 := m1Loop st (extractCodeBlocks (text.data.length + 1) text.data)
  if r1.2 then (r1.1, true)
  else
    let r2 := m2 r1.1 text
    if r2.2 then (r2.1, true) else m3 r2.1 text

/-- AgentRepl.getAIResponseWithToolCallsDirectly: one directed query; when
it resolves with nonempty text the extraction pipeline runs on it (its
result discarded); every failure is caught internally, so the fallback
itself never rejects and pushes nothing on failure. -/
def getFallback (st : AgentState) : AgentState :=
  let q := issueQuery st fallbackOpts
  match q.2 with
  | .ok responseText =>
    if responseText ≠ "" then (processToolCallsInText q.1 responseText).1 else q.1
  | .err _ => q.1

/-- AgentRepl.getAIResponse: the free-text query; on success the extraction
pipeline runs and, when nothing was detected, the text is pushed as the
assistant message; on failure the directed fallback is tried exactly once.
The source's further catch around the fallback is unreachable because the
fallback catches internally. -/
def getAIResponse (st : AgentState) : AgentState :=
  let q := issueQuery st primaryOpts
  match q.2 with
  | .ok text =>
    let r := processToolCallsInText q.1 text
    if r.2 then r.1 else pushMsg r.1 .assistant text
  | .err _ => getFallback q.1

/-- AgentRepl.processInput: one user turn (blank input is ignored). -/
def processInput (st : AgentState) (input : String) : AgentState :=
  if strTrim input = "" then st
  else getAIResponse (pushMsg st .user input)

/-!
Helper lemmas about strings and the stream state.
-/

lemma strData_append (a b : String) : (a ++ b).data = a.data ++ b.data := rfl

lemma strEq_of_data {a b : String} (h : a.data = b.data) : a = b :=
  congrArg String.mk h

lemma strAppend_assoc (a b c : String) : a ++ b ++ c = a ++ (b ++ c) := by
  apply strEq_of_data
  simp [strData_append]

lemma strAppend_empty (a : String) : a ++ "" = a := by
  apply strEq_of_data
  simp [strData_append]

lemma strEmpty_append (a : String) : "" ++ a = a := by
  apply strEq_of_data
  simp [strData_append]

lemma strNe_empty_iff (a : String) : a ≠ "" ↔ a.data ≠ [] := by
  constructor
  · intro h hd
    exact h (strEq_of_data (by simpa using hd))
  · intro h he
    exact h (by simpa using congrArg String.data he)

lemma strAppend_ne_empty_left {a : String} (b : String) (h : a ≠ "") : a ++ b ≠ "" := by
  rw [strNe_empty_iff] at h ⊢
  rw [strData_append]
  simp only [ne_eq, List.append_eq_nil]
  intro hc
  exact h hc.1

/-- Concatenation of a list of strings, in order. -/
def concatList : List String → String
  | [] => ""
  | s :: rest => s ++ concatList rest

lemma concatList_append (l1 l2 : List String) :
    concatList (l1 ++ l2) = concatList l1 ++ concatList l2 := by
  induction l1 with
  | nil => simp [concatList, strEmpty_append]
  | cons s t ih => simp [concatList, ih, strAppend_assoc]

lemma concatList_singleton (s : String) : concatList [s] = s := by
  simp [concatList, strAppend_empty]

lemma concatList_ne_empty {l : List String} (hmem : ∀ c ∈ l, c ≠ "") (hne : l ≠ []) :
    concatList l ≠ "" := by
  cases l with
  | nil => exact absurd rfl hne
  | cons s t =>
    exact strAppend_ne_empty_left _ (hmem s (by simp))

/-- The stream invariant: the accumulator is the concatenation of the
delivered chunks, delivered chunks are nonempty, and a resolved value is the
concatenation of the chunks delivered no later than the resolution. -/
def streamInv (st : StreamState) : Prop :=
  st.fullResponse = concatList st.delivered ∧
  (∀ c ∈ st.delivered, c ≠ "") ∧
  (∀ s, st.settled = some (Except.ok s) → ∃ p q, st.delivered = p ++ q ∧ s = concatList p)

lemma streamInv_init : streamInv initStream := by
  refine ⟨rfl, by simp [initStream], ?_⟩
  intro s h
  simp [initStream] at h

lemma streamInv_settleResolve {st : StreamState} (h : streamInv st) :
    streamInv (settleResolve st st.fullResponse) := by
  obtain ⟨h1, h2, h3⟩ := h
  unfold settleResolve
  cases hs : st.settled with
  | none =>
    refine ⟨h1, h2, ?_⟩
    intro s hset
    simp at hset
    exact ⟨st.delivered, [], by simp, by rw [← hset, h1]⟩
  | some e => exact ⟨h1, h2, h3⟩

lemma streamInv_settleReject {st : StreamState} (m : String) (h : streamInv st) :
    streamInv (settleReject st m) := by
  obtain ⟨h1, h2, h3⟩ := h
  unfold settleReject
  cases hs : st.settled with
  | none =>
    refine ⟨h1, h2, ?_⟩
    intro s hset
    simp at hset
  | some e => exact ⟨h1, h2, h3⟩

lemma streamInv_pushContent {st : StreamState} (c : String) (hc : c ≠ "")
    (h : streamInv st) :
    streamInv { st with fullResponse := st.fullResponse ++ c,
                        delivered := st.delivered ++ [c] } := by
  obtain ⟨h1, h2, h3⟩ := h
  refine ⟨?_, ?_, ?_⟩
  · simp only [h1, concatList_append, concatList_singleton]
  · intro x hx
    rcases List.mem_append.mp hx with hx | hx
    · exact h2 x hx
    · simp at hx; subst hx; exact hc
  · intro s hset
    obtain ⟨p, q, hpq, hs⟩ := h3 s hset
    exact ⟨p, q ++ [c], by simp [hpq], hs⟩

lemma streamInv_processEvent {st : StreamState} (ev : String) (h : streamInv st) :
    streamInv (processEvent st ev) := by
  unfold processEvent
  cases hp : jsonParse ev with
  | none => exact h
  | some data =>
    simp only
    by_cases he : truthyO (data.getField "error") = true
    · simpa [he] using h
    · simp only [Bool.not_eq_true] at he
      simp only [he, if_false, Bool.false_eq_true]
      by_cases hc : contentOf data = ""
      · simp only [hc, ne_eq, not_true_eq_false, if_false]
        by_cases hd : truthyO (data.getField "done") = true
        · simp only [hd, if_true]
          have : streamInv { st with doneSignals := st.doneSignals + 1 } := h
          exact streamInv_settleResolve this
        · simp only [Bool.not_eq_true] at hd
          simpa [hd] using h
      · simp only [hc, ne_eq, not_false_eq_true, if_true]
        have h1 := streamInv_pushContent (contentOf data) hc h
        by_cases hd : truthyO (data.getField "done") = true
        · simp only [hd, if_true]
          have h2 : streamInv { st with fullResponse := st.fullResponse ++ contentOf data,
                                        delivered := st.delivered ++ [contentOf data],
                                        doneSignals := st.doneSignals + 1 } := h1
          exact streamInv_settleResolve h2
        · simp only [Bool.not_eq_true] at hd
          simpa [hd] using h1

lemma streamInv_processChunk {st : StreamState} (chunk : String) (h : streamInv st) :
    streamInv (processChunk st chunk) := by
  unfold processChunk
  induction ((splitNl chunk).filter (fun e => e ≠ "")) generalizing st with
  | nil => exact h
  | cons e rest ih => exact ih (streamInv_processEvent e h)

lemma streamInv_fold (chunks : List String) :
    streamInv (chunks.foldl processChunk initStream) := by
  have base := streamInv_init
  generalize initStream = st at base ⊢
  induction chunks generalizing st with
  | nil => exact base
  | cons c rest ih => exact ih _ (streamInv_processChunk c base)

lemma streamInv_runStream (chunks : List String) (streamError : Bool) :
    streamInv (runStream chunks streamError) := by
  unfold runStream
  have h := streamInv_fold chunks
  by_cases he : streamError = true
  · simp only [he, if_true]
    exact streamInv_settleReject _ h
  · simp only [Bool.not_eq_true] at he
    simp only [he, Bool.false_eq_true, if_false]
    by_cases hf : (chunks.foldl processChunk initStream).fullResponse = ""
    · simp [hf]
      exact streamInv_settleReject _ h
    · simp only [hf, ne_eq, not_false_eq_true, if_true]
      have h1 : streamInv { chunks.foldl processChunk initStream with
          doneSignals := (chunks.foldl processChunk initStream).doneSignals + 1 } := h
      exact streamInv_settleResolve h1

lemma processEvent_settled_of_notDone {st : StreamState} {ev : String}
    (h : isDoneEvent ev = false) : (processEvent st ev).settled = st.settled := by
  unfold processEvent
  unfold isDoneEvent at h
  cases hp : jsonParse ev with
  | none => rfl
  | some data =>
    rw [hp] at h
    simp only
    by_cases he : truthyO (data.getField "error") = true
    · simp [he]
    · simp only [Bool.not_eq_true] at he
      simp only [he, Bool.false_eq_true, if_false]
      have hd : truthyO (data.getField "done") = false := by
        simpa [he] using h
      by_cases hc : contentOf data = ""
      · simp [hc, hd]
      · simp [hc, hd]

lemma foldl_settled_of_notDone (events : List String) (st : StreamState)
    (h : ∀ e ∈ events, isDoneEvent e = false) :
    (events.foldl processEvent st).settled = st.settled := by
  induction events generalizing st with
  | nil => rfl
  | cons e rest ih =>
    rw [List.foldl_cons, ih _ (fun x hx => h x (List.mem_cons_of_mem _ hx)),
        processEvent_settled_of_notDone (h e (List.mem_cons_self _ _))]

lemma processChunk_settled_of_notDone {st : StreamState} {chunk : String}
    (h : ∀ e ∈ (splitNl chunk).filter (fun e => e ≠ ""), isDoneEvent e = false) :
    (processChunk st chunk).settled = st.settled :=
  foldl_settled_of_notDone _ st h

lemma fold_settled_of_notDone {chunks : List String}
    (h : ∀ e ∈ allEvents chunks, isDoneEvent e = false) :
    (chunks.foldl processChunk initStream).settled = none := by
  have base : initStream.settled = none := rfl
  generalize initStream = st at base ⊢
  induction chunks generalizing st with
  | nil => exact base
  | cons c rest ih =>
    have hc : ∀ e ∈ (splitNl c).filter (fun e => e ≠ ""), isDoneEvent e = false := by
      intro e he
      exact h e (by simp only [allEvents, List.flatMap_cons, List.mem_append]; exact Or.inl he)
    have hr : ∀ e ∈ allEvents rest, isDoneEvent e = false := by
      intro e he
      apply h e
      simp only [allEvents, List.flatMap_cons, List.mem_append]
      exact Or.inr (by simpa [allEvents] using he)
    rw [List.foldl_cons]
    exact ih hr _ (by rw [processChunk_settled_of_notDone hc, base])

/-!
Helper lemmas about the registry.
-/

lemma regHas_false_forall {reg : List Tool} {n : String} (h : regHas reg n = false) :
    ∀ t ∈ reg, t.name ≠ n := by
  intro t ht he
  have : reg.any (fun t => t.name = n) = true := List.any_eq_true.mpr ⟨t, ht, by simp [he]⟩
  rw [regHas, this] at h
  exact absurd h (by simp)

lemma find?_append_of_none {α : Type} {p : α → Bool} {l1 l2 : List α}
    (h : l1.find? p = none) : (l1 ++ l2).find? p = l2.find? p := by
  induction l1 with
  | nil => rfl
  | cons a t ih =>
    cases hp : p a with
    | false =>
      rw [List.cons_append, List.find?_cons_of_neg _ (by simp [hp]),
          ih (by rw [List.find?_cons_of_neg _ (by simp [hp])] at h; exact h)]
    | true =>
      rw [List.find?_cons_of_pos _ hp] at h
      exact absurd h (by simp)

lemma regGet_none_of_has_false {reg : List Tool} {n : String} (h : regHas reg n = false) :
    regGet reg n = none := by
  rw [regGet, List.find?_eq_none]
  intro t ht
  simpa using regHas_false_forall h t ht

/-!
Helper lemmas about the orchestration: counting directed (json-format)
queries, and behaviour of the extraction pipeline under an oracle whose
answers all succeed.
-/

def isDirected (o : ReqOpts) : Bool := o.format = some "json"

def dirCount (qs : List ReqOpts) : Nat := (qs.filter isDirected).length

lemma dirCount_append (qs l : List ReqOpts) :
    dirCount (qs ++ l) = dirCount qs + dirCount l := by
  simp [dirCount, List.filter_append]

lemma dirCount_plain : dirCount [plainOpts] = 0 := rfl

lemma dirCount_primary : dirCount [primaryOpts] = 0 := rfl

lemma dirCount_fallback : dirCount [fallbackOpts] = 1 := rfl

lemma catch_queries (st : AgentState) (e : Thrown) :
    dirCount (processToolCallCatch st e).1.queries = dirCount st.queries := by
  unfold processToolCallCatch
  simp only [issueQuery, pushMsg]
  cases st.oracle st.qIdx <;> simp [dirCount_append, dirCount_plain]

lemma ptc_queries (st : AgentState) (n p : JsonValue) :
    dirCount (processToolCall st n p).1.queries = dirCount st.queries := by
  unfold processToolCall
  cases n with
  | str name =>
    by_cases hskip : (name = "" || !regHas st.registry name) = true
    · simp [hskip]
    · simp only [Bool.not_eq_true] at hskip
      simp only [hskip, Bool.false_eq_true, if_false]
      cases hr : (ToolRegistry.execute st.registry name p).1 with
      | value v =>
        cases hv : v.map jsonStringify with
        | none =>
          simp only [hr, hv]
          exact catch_queries _ _
        | some sres =>
          simp only [hr, hv, issueQuery, pushMsg]
          cases st.oracle st.qIdx with
          | ok t => simp [dirCount_append, dirCount_plain]
          | err d =>
            rw [catch_queries]
            simp [dirCount_append, dirCount_plain]
      | toolError m =>
        simp only [hr]
        exact catch_queries _ _
  | null => rfl
  | bool b => rfl
  | num q => rfl
  | arr xs => rfl
  | obj kvs => rfl

lemma m1PathFallback_queries (st : AgentState) (name : String) (paramsStr : List Char) :
    dirCount (m1PathFallback st name paramsStr).1.queries = dirCount st.queries := by
  unfold m1PathFallback
  cases findQuotedField "path" paramsStr with
  | none => rfl
  | some path => simpa using ptc_queries st _ _

lemma m1Block_queries (st : AgentState) (b : List Char) :
    dirCount (m1Block st b).1.queries = dirCount st.queries := by
  unfold m1Block
  dsimp only
  cases execToolCallsArray (trimChars b) with
  | none => rfl
  | some g1 =>
    simp only
    cases findQuotedField "name" (trimChars g1) with
    | none => rfl
    | some name =>
      cases execParamsField (trimChars g1) with
      | none => rfl
      | some params0 =>
        simp only
        cases jsonParse (String.mk (replaceSquotes params0)) with
        | none => exact m1PathFallback_queries _ _ _
        | some params =>
          simp only
          by_cases hthrew : (processToolCall st (.str name) params).2 = true
          · simp only [hthrew, if_true]
            rw [m1PathFallback_queries, ptc_queries]
          · simp only [Bool.not_eq_true] at hthrew
            simp only [hthrew, Bool.false_eq_true, if_false]
            exact ptc_queries _ _ _

lemma m1Loop_queries (st : AgentState) (bs : List (List Char)) :
    dirCount (m1Loop st bs).1.queries = dirCount st.queries := by
  induction bs generalizing st with
  | nil => rfl
  | cons b rest ih =>
    unfold m1Loop
    by_cases hb : (m1Block st b).2 = true
    · simp only [hb, if_true]
      exact m1Block_queries _ _
    · simp only [Bool.not_eq_true] at hb
      simp only [hb, Bool.false_eq_true, if_false]
      rw [ih, m1Block_queries]

lemma m2TryJ_queries (st : AgentState) (lines : List String) (i j fuel : Nat) :
    dirCount (m2TryJ st lines i j fuel).1.queries = dirCount st.queries := by
  induction fuel generalizing st j with
  | zero => rfl
  | succ fuel ih =>
    unfold m2TryJ
    simp only
    cases jsonParse (if strStartsWith (joinNl ((lines.drop i).take j)) (String.mk [lbrace])
        then joinNl ((lines.drop i).take j)
        else String.mk [lbrace] ++ joinNl ((lines.drop i).take j) ++ String.mk [rbrace]) with
    | none => exact ih st (j + 1)
    | some parsed =>
      simp only
      cases parsed.getField "tool_calls" with
      | none => exact ih st (j + 1)
      | some tc =>
        simp only
        by_cases htc : (jsTruthy tc && tc.isArr) = true
        · simp only [htc, if_true]
          cases m2FirstTruthy tc.arrItems with
          | none => exact ih st (j + 1)
          | some np =>
            simp only
            by_cases hthrew : (processToolCall st np.1 np.2).2 = true
            · simp only [hthrew, if_true]
              rw [ih, ptc_queries]
            · simp only [Bool.not_eq_true] at hthrew
              simp only [hthrew, Bool.false_eq_true, if_false]
              exact ptc_queries _ _ _
        · simp only [Bool.not_eq_true] at htc
          simp only [htc, Bool.false_eq_true, if_false]
          exact ih st (j + 1)

lemma m2Lines_queries (st : AgentState) (lines : List String) (i fuel : Nat) :
    dirCount (m2Lines st lines i fuel).1.queries = dirCount st.queries := by
  induction fuel generalizing st i with
  | zero => rfl
  | succ fuel ih =>
    unfold m2Lines
    cases lines.get? i with
    | none => rfl
    | some l =>
      simp only
      by_cases hl : (jsIncludes (strTrim l) "tool_calls" ||
          jsIncludes (strTrim l) (String.mk (quoteWrap "name")) ||
          jsIncludes (strTrim l) (String.mk (quoteWrap "params"))) = true
      · simp only [hl, if_true]
        by_cases ht : (m2TryJ st lines i 1 10).2 = true
        · simp only [ht, if_true]
          exact m2TryJ_queries _ _ _ _ _
        · simp only [Bool.not_eq_true] at ht
          simp only [ht, Bool.false_eq_true, if_false]
          rw [ih, m2TryJ_queries]
      · simp only [Bool.not_eq_true] at hl
        simp only [hl, Bool.false_eq_true, if_false]
        exact ih st (i + 1)

lemma m2_queries (st : AgentState) (text : String) :
    dirCount (m2 st text).1.queries = dirCount st.queries := by
  unfold m2
  by_cases h : (jsIncludes text "tool_calls" &&
      (jsIncludes text (String.mk (quoteWrap "name")) ||
       jsIncludes text (String.mk (quoteWrap "params")))) = true
  · simp only [h, if_true]
    exact m2Lines_queries _ _ _ _
  · simp only [Bool.not_eq_true] at h
    simp only [h, Bool.false_eq_true, if_false]

lemma m3Fallback_queries (st : AgentState) (name : String) (paramsText : List Char) :
    dirCount (m3Fallback st name paramsText).1.queries = dirCount st.queries := by
  unfold m3Fallback
  cases findLoosePath paramsText with
  | none => rfl
  | some path => simpa using ptc_queries st _ _

lemma m3Step_queries (st : AgentState) (name : String) (paramsText : List Char) :
    dirCount (m3Step st name paramsText).1.queries = dirCount st.queries := by
  unfold m3Step
  simp only
  cases jsonParse (String.mk (autoQuoteKeys (replaceSquotes paramsText).length
      (replaceSquotes paramsText))) with
  | none => exact m3Fallback_queries _ _ _
  | some params =>
    simp only
    by_cases hthrew : (processToolCall st (.str name) params).2 = true
    · simp only [hthrew, if_true]
      rw [m3Fallback_queries, ptc_queries]
    · simp only [Bool.not_eq_true] at hthrew
      simp only [hthrew, Bool.false_eq_true, if_false]
      exact ptc_queries _ _ _

lemma m3Loop_queries (st : AgentState) (ms : List (String × List Char)) :
    dirCount (m3Loop st ms).1.queries = dirCount st.queries := by
  induction ms generalizing st with
  | nil => rfl
  | cons m rest ih =>
    unfold m3Loop
    by_cases hs : (m3Step st m.1 m.2).2 = true
    · simp only [hs, if_true]
      exact m3Step_queries _ _ _
    · simp only [Bool.not_eq_true] at hs
      simp only [hs, Bool.false_eq_true, if_false]
      rw [ih, m3Step_queries]

lemma pipeline_queries (st : AgentState) (text : String) :
    dirCount (processToolCallsInText st text).1.queries = dirCount st.queries := by
  unfold processToolCallsInText m3
  by_cases h1 : (m1Loop st (extractCodeBlocks (text.data.length + 1) text.data)).2 = true
  · simp only [h1, if_true]
    exact m1Loop_queries _ _
  · simp only [Bool.not_eq_true] at h1
    simp only [h1, Bool.false_eq_true, if_false]
    by_cases h2 : (m2 (m1Loop st (extractCodeBlocks (text.data.length + 1) text.data)).1 text).2 = true
    · simp only [h2, if_true]
      rw [m2_queries, m1Loop_queries]
    · simp only [Bool.not_eq_true] at h2
      simp only [h2, Bool.false_eq_true, if_false]
      rw [m3Loop_queries, m2_queries, m1Loop_queries]

lemma getFallback_queries (st : AgentState) :
    dirCount (getFallback st).queries = dirCount st.queries + 1 := by
  unfold getFallback
  simp only [issueQuery]
  cases st.oracle st.qIdx with
  | ok responseText =>
    simp only
    by_cases hne : responseText = ""
    · simp [hne, dirCount_append, dirCount_fallback]
    · simp only [hne, ne_eq, not_false_eq_true, if_true]
      rw [pipeline_queries]
      simp [dirCount_append, dirCount_fallback]
  | err d => simp [dirCount_append, dirCount_fallback]

lemma getAIResponse_queries (st : AgentState) :
    dirCount (getAIResponse st).queries ≤ dirCount st.queries + 1 := by
  unfold getAIResponse
  simp only [issueQuery]
  cases st.oracle st.qIdx with
  | ok text =>
    simp only
    by_cases hdet : (processToolCallsInText
        { st with qIdx := st.qIdx + 1, queries := st.queries ++ [primaryOpts] } text).2 = true
    · simp only [hdet, if_true]
      rw [pipeline_queries]
      simp [dirCount_append, dirCount_primary]
    · simp only [Bool.not_eq_true] at hdet
      simp only [hdet, Bool.false_eq_true, if_false, pushMsg]
      rw [pipeline_queries]
      simp [dirCount_append, dirCount_primary]
  | err d =>
    simp only
    rw [getFallback_queries]
    simp [dirCount_append, dirCount_primary]

/-- An oracle all of whose answers resolve. -/
def okOracleP (o : Nat → QueryOutcome) : Prop := ∀ n, (o n).isOk = true

lemma isOk_elim {o : QueryOutcome} (h : o.isOk = true) : ∃ t, o = .ok t := by
  cases o with
  | ok t => exact ⟨t, rfl⟩
  | err d => simp [QueryOutcome.isOk] at h

lemma catch_ok {st : AgentState} (e : Thrown) (h : okOracleP st.oracle) :
    (processToolCallCatch st e).2 = false ∧
    (processToolCallCatch st e).1.execTrace = st.execTrace := by
  unfold processToolCallCatch
  simp only [issueQuery, pushMsg]
  obtain ⟨t, ht⟩ := isOk_elim (h st.qIdx)
  rw [ht]
  exact ⟨rfl, rfl⟩

lemma ptc_ok {st : AgentState} (n p : JsonValue) (h : okOracleP st.oracle) :
    (processToolCall st n p).2 = false ∧
    (processToolCall st n p).1.execTrace.length ≤ st.execTrace.length + 1 := by
  unfold processToolCall
  cases n with
  | str name =>
    by_cases hskip : (name = "" || !regHas st.registry name) = true
    · simp [hskip]
    · simp only [Bool.not_eq_true] at hskip
      simp only [hskip, Bool.false_eq_true, if_false]
      have htr : okOracleP ({ st with execTrace := st.execTrace ++ [(name, p)] } : AgentState).oracle := h
      cases hr : (ToolRegistry.execute st.registry name p).1 with
      | value v =>
        cases hv : v.map jsonStringify with
        | none =>
          simp only [hr, hv]
          have := @catch_ok { st with execTrace := st.execTrace ++ [(name, p)] }
            (.other undefinedLengthError) htr
          refine ⟨this.1, ?_⟩
          rw [this.2]
          simp
        | some sres =>
          simp only [hr, hv, issueQuery, pushMsg]
          obtain ⟨t, ht⟩ := isOk_elim (h st.qIdx)
          rw [ht]
          simp
      | toolError m =>
        simp only [hr]
        have := @catch_ok { st with execTrace := st.execTrace ++ [(name, p)] }
          (.toolErr m) htr
        refine ⟨this.1, ?_⟩
        rw [this.2]
        simp
  | null => simp
  | bool b => simp
  | num q => simp
  | arr xs => simp
  | obj kvs => simp

lemma m1PathFallback_ok {st : AgentState} (name : String) (ps : List Char)
    (h : okOracleP st.oracle) :
    ((m1PathFallback st name ps).2 = false → (m1PathFallback st name ps).1 = st) ∧
    (m1PathFallback st name ps).1.execTrace.length ≤ st.execTrace.length + 1 := by
  unfold m1PathFallback
  cases findQuotedField "path" ps with
  | none => exact ⟨fun _ => rfl, Nat.le_succ _⟩
  | some path =>
    have hp := @ptc_ok st (.str name) (.obj [("path", .str path)]) h
    simp only [hp.1]
    exact ⟨by simp, hp.2⟩

lemma m1Block_ok {st : AgentState} (b : List Char) (h : okOracleP st.oracle) :
    ((m1Block st b).2 = false → (m1Block st b).1 = st) ∧
    (m1Block st b).1.execTrace.length ≤ st.execTrace.length + 1 := by
  unfold m1Block
  dsimp only
  cases execToolCallsArray (trimChars b) with
  | none => exact ⟨fun _ => rfl, Nat.le_succ _⟩
  | some g1 =>
    simp only
    cases findQuotedField "name" (trimChars g1) with
    | none => exact ⟨fun _ => rfl, Nat.le_succ _⟩
    | some name =>
      cases execParamsField (trimChars g1) with
      | none => exact ⟨fun _ => rfl, Nat.le_succ _⟩
      | some params0 =>
        simp only
        cases jsonParse (String.mk (replaceSquotes params0)) with
        | none => exact m1PathFallback_ok name _ h
        | some params =>
          simp only
          have hp := @ptc_ok st (.str name) params h
          simp only [hp.1, Bool.false_eq_true, if_false]
          exact ⟨by simp, hp.2⟩

lemma m1Loop_ok {st : AgentState} (bs : List (List Char)) (h : okOracleP st.oracle) :
    ((m1Loop st bs).2 = false → (m1Loop st bs).1 = st) ∧
    (m1Loop st bs).1.execTrace.length ≤ st.execTrace.length + 1 := by
  induction bs with
  | nil => exact ⟨fun _ => rfl, Nat.le_succ _⟩
  | cons b rest ih =>
    unfold m1Loop
    have hb := m1Block_ok b h
    by_cases h2 : (m1Block st b).2 = true
    · simp only [h2, if_true]
      exact ⟨by simp, hb.2⟩
    · simp only [Bool.not_eq_true] at h2
      simp only [h2, Bool.false_eq_true, if_false]
      rw [hb.1 h2]
      exact ih

lemma m2TryJ_ok {st : AgentState} (lines : List String) (i j fuel : Nat)
    (h : okOracleP st.oracle) :
    ((m2TryJ st lines i j fuel).2 = false → (m2TryJ st lines i j fuel).1 = st) ∧
    (m2TryJ st lines i j fuel).1.execTrace.length ≤ st.execTrace.length + 1 := by
  induction fuel generalizing j with
  | zero => exact ⟨fun _ => rfl, Nat.le_succ _⟩
  | succ fuel ih =>
    unfold m2TryJ
    simp only
    cases jsonParse (if strStartsWith (joinNl ((lines.drop i).take j)) (String.mk [lbrace])
        then joinNl ((lines.drop i).take j)
        else String.mk [lbrace] ++ joinNl ((lines.drop i).take j) ++ String.mk [rbrace]) with
    | none => exact ih (j + 1)
    | some parsed =>
      simp only
      cases parsed.getField "tool_calls" with
      | none => exact ih (j + 1)
      | some tc =>
        simp only
        by_cases htc : (jsTruthy tc && tc.isArr) = true
        · simp only [htc, if_true]
          cases m2FirstTruthy tc.arrItems with
          | none => exact ih (j + 1)
          | some np =>
            simp only
            have hp := @ptc_ok st np.1 np.2 h
            simp only [hp.1, Bool.false_eq_true, if_false]
            exact ⟨by simp, hp.2⟩
        · simp only [Bool.not_eq_true] at htc
          simp only [htc, Bool.false_eq_true, if_false]
          exact ih (j + 1)

lemma m2Lines_ok {st : AgentState} (lines : List String) (i fuel : Nat)
    (h : okOracleP st.oracle) :
    ((m2Lines st lines i fuel).2 = false → (m2Lines st lines i fuel).1 = st) ∧
    (m2Lines st lines i fuel).1.execTrace.length ≤ st.execTrace.length + 1 := by
  induction fuel generalizing i with
  | zero => exact ⟨fun _ => rfl, Nat.le_succ _⟩
  | succ fuel ih =>
    unfold m2Lines
    cases lines.get? i with
    | none => exact ⟨fun _ => rfl, Nat.le_succ _⟩
    | some l =>
      simp only
      by_cases hl : (jsIncludes (strTrim l) "tool_calls" ||
          jsIncludes (strTrim l) (String.mk (quoteWrap "name")) ||
          jsIncludes (strTrim l) (String.mk (quoteWrap "params"))) = true
      · simp only [hl, if_true]
        have ht := @m2TryJ_ok st lines i 1 10 h
        by_cases h2 : (m2TryJ st lines i 1 10).2 = true
        · simp only [h2, if_true]
          exact ⟨by simp, ht.2⟩
        · simp only [Bool.not_eq_true] at h2
          simp only [h2, Bool.false_eq_true, if_false]
          rw [ht.1 h2]
          exact ih (i + 1)
      · simp only [Bool.not_eq_true] at hl
        simp only [hl, Bool.false_eq_true, if_false]
        exact ih (i + 1)

lemma m2_ok {st : AgentState} (text : String) (h : okOracleP st.oracle) :
    ((m2 st text).2 = false → (m2 st text).1 = st) ∧
    (m2 st text).1.execTrace.length ≤ st.execTrace.length + 1 := by
  unfold m2
  by_cases hc : (jsIncludes text "tool_calls" &&
      (jsIncludes text (String.mk (quoteWrap "name")) ||
       jsIncludes text (String.mk (quoteWrap "params")))) = true
  · simp only [hc, if_true]
    exact m2Lines_ok _ _ _ h
  · simp only [Bool.not_eq_true] at hc
    simp only [hc, Bool.false_eq_true, if_false]
    exact ⟨by simp, Nat.le_succ _⟩

lemma m3Fallback_ok {st : AgentState} (name : String) (paramsText : List Char)
    (h : okOracleP st.oracle) :
    ((m3Fallback st name paramsText).2 = false → (m3Fallback st name paramsText).1 = st) ∧
    (m3Fallback st name paramsText).1.execTrace.length ≤ st.execTrace.length + 1 := by
  unfold m3Fallback
  cases findLoosePath paramsText with
  | none => exact ⟨fun _ => rfl, Nat.le_succ _⟩
  | some path =>
    have hp := @ptc_ok st (.str name) (.obj [("path", .str path)]) h
    simp only [hp.1]
    exact ⟨by simp, hp.2⟩

lemma m3Step_ok {st : AgentState} (name : String) (paramsText : List Char)
    (h : okOracleP st.oracle) :
    ((m3Step st name paramsText).2 = false → (m3Step st name paramsText).1 = st) ∧
    (m3Step st name paramsText).1.execTrace.length ≤ st.execTrace.length + 1 := by
  unfold m3Step
  simp only
  cases jsonParse (String.mk (autoQuoteKeys (replaceSquotes paramsText).length
      (replaceSquotes paramsText))) with
  | none => exact m3Fallback_ok name _ h
  | some params =>
    simp only
    have hp := @ptc_ok st (.str name) params h
    simp only [hp.1, Bool.false_eq_true, if_false]
    exact ⟨by simp, hp.2⟩

lemma m3Loop_ok {st : AgentState} (ms : List (String × List Char)) (h : okOracleP st.oracle) :
    ((m3Loop st ms).2 = false → (m3Loop st ms).1 = st) ∧
    (m3Loop st ms).1.execTrace.length ≤ st.execTrace.length + 1 := by
  induction ms with
  | nil => exact ⟨fun _ => rfl, Nat.le_succ _⟩
  | cons m rest ih =>
    unfold m3Loop
    have hs := @m3Step_ok st m.1 m.2 h
    by_cases h2 : (m3Step st m.1 m.2).2 = true
    · simp only [h2, if_true]
      exact ⟨by simp, hs.2⟩
    · simp only [Bool.not_eq_true] at h2
      simp only [h2, Bool.false_eq_true, if_false]
      rw [hs.1 h2]
      exact ih

lemma pipeline_ok {st : AgentState} (text : String) (h : okOracleP st.oracle) :
    (processToolCallsInText st text).1.execTrace.length ≤ st.execTrace.length + 1 := by
  unfold processToolCallsInText m3
  have h1 := @m1Loop_ok st (extractCodeBlocks (text.data.length + 1) text.data) h
  by_cases hb1 : (m1Loop st (extractCodeBlocks (text.data.length + 1) text.data)).2 = true
  · simp only [hb1, if_true]
    exact h1.2
  · simp only [Bool.not_eq_true] at hb1
    simp only [hb1, Bool.false_eq_true, if_false]
    rw [h1.1 hb1]
    have h2 := @m2_ok st text h
    by_cases hb2 : (m2 st text).2 = true
    · simp only [hb2, if_true]
      exact h2.2
    · simp only [Bool.not_eq_true] at hb2
      simp only [hb2, Bool.false_eq_true, if_false]
      rw [h2.1 hb2]
      exact (m3Loop_ok _ h).2

lemma strTake_length (s : String) (n : Nat) : (strTake s n).length = min n s.length := by
  cases s with
  | mk l => simp [strTake, String.length]

lemma condenseResult_of_gt {s : String} (h : s.length > 500) :
    (condenseResult s).length = 505 := by
  rw [condenseResult, if_pos h, String.length_append, strTake_length]
  have h490 : min 490 s.length = 490 := Nat.min_eq_left (by omega)
  rw [h490]
  rfl

lemma condenseResult_of_le {s : String} (h : ¬ s.length > 500) :
    condenseResult s = s := by
  rw [condenseResult, if_neg h]

lemma regHas_of_get {reg : List Tool} {n : String} {tool : Tool}
    (h : regGet reg n = some tool) : regHas reg n = true := by
  have hm := List.mem_of_find?_eq_some h
  have hp := List.find?_some h
  exact List.any_eq_true.mpr ⟨tool, hm, hp⟩

lemma map_keep_names {reg : List Tool} {n : String} (t2 : Tool)
    (h : ∀ u ∈ reg, u.name ≠ n) :
    reg.map (fun u => if u.name = n then t2 else u) = reg := by
  induction reg with
  | nil => rfl
  | cons a rest ih =>
    have ha : a.name ≠ n := h a (by simp)
    simp only [List.map_cons, if_neg ha]
    rw [ih (fun u hu => h u (by simp [hu]))]

/-!
Concrete fixtures used by witnesses and counterexamples.
-/

def listDirTool : Tool :=
  ⟨"listDir", "List the contents of a directory", fun _ => .ok ⟨true, some (.str "ok"), none⟩⟩

def readFileTool : Tool :=
  ⟨"readFile", "Read the contents of a file", fun _ => .ok ⟨true, some (.str "content"), none⟩⟩

def okOracleFn : Nat → QueryOutcome := fun _ => .ok "done"

def agentSt0 : AgentState := ⟨[listDirTool, readFileTool], okOracleFn, 0, [], [], []⟩

def c2Content1 : String :=
  "tool_calls: [ \x7b\"name\": \"listDir\", \"params\": \x7b\"path\": \".\"\x7d \x7d ]"

def c2Block1 : String := "```json\n" ++ c2Content1 ++ "\n```"

def c2Content2 : String :=
  "tool_calls: [ \x7b\"name\": \"readFile\", \"params\": \x7b\"path\": \"x.ts\"\x7d \x7d ]"

def c2Block2 : String := "```json\n" ++ c2Content2 ++ "\n```"

def c2Text : String := c2Block1 ++ "\nAnd then:\n" ++ c2Block2

def bombTool : Tool := ⟨"bomb", "Always throws", fun _ => .thrown "boom"⟩

def bigData : JsonValue := .str (String.mk (List.replicate 499 'a'))

def bigTool : Tool := ⟨"bigTool", "Returns a large result", fun _ => .ok ⟨true, some bigData, none⟩⟩

def agentStBig : AgentState := ⟨[bigTool], okOracleFn, 0, [], [], []⟩

def c4State : AgentState := ⟨[], okOracleFn, 0, [], [], []⟩

def tFirst : Tool := ⟨"readFile", "first definition", fun _ => .ok ⟨true, none, none⟩⟩

def tSecond : Tool := ⟨"readFile", "second definition", fun _ => .ok ⟨true, none, none⟩⟩

def cex7chunk : String :=
  "\x7b\"message\":\x7b\"content\":\"a\"\x7d,\"done\":true\x7d\n\x7b\"message\":\x7b\"content\":\"b\"\x7d\x7d"

def w7chunks : List String :=
  ["\x7b\"message\":\x7b\"content\":\"hel\"\x7d\x7d",
   "\x7b\"message\":\x7b\"content\":\"lo\"\x7d,\"done\":true\x7d"]

def w10chunks : List String :=
  ["\x7b\"message\":\x7b\"content\":\"x\"\x7d\x7d\n\x7b\"message\":\x7b\"content\":\"y\"\x7d\x7d"]

/-!
Claim theorems.
-/

/-- C1 counterexample: the claim says execute of an absent name returns a
Failure value without throwing; on the code, execute of an absent name
rejects with a ToolError whose message is Tool, the quoted name, not found,
and returns no value at all (while indeed invoking no executor). -/
theorem c1_counterexample :
    (ToolRegistry.execute [] "doesNotExist" (JsonValue.obj [])).1.isValue = false ∧
    (ToolRegistry.execute [] "doesNotExist" (JsonValue.obj [])).1 =
      .toolError "Tool \"doesNotExist\" not found" ∧
    (ToolRegistry.execute [] "doesNotExist" (JsonValue.obj [])).2 = 0 :=
  ⟨rfl, rfl, rfl⟩

/-- C1 amended: for every registry, absent name and argument mapping,
execute rejects with ToolError carrying the message Tool, the quoted name,
not found, and invokes no executor function; it does not return a Failure
value. -/
theorem c1_absent_tool_rejects (reg : List Tool) (name : String) (args : JsonValue)
    (h : regGet reg name = none) :
    ToolRegistry.execute reg name args =
      (.toolError ("Tool " ++ String.mk (quoteWrap name) ++ " not found"), 0) := by
  unfold ToolRegistry.execute
  rw [h]

/-- C1 witness: the amended statement evaluated on the empty registry. -/
theorem c1_absent_tool_rejects_witness :
    regGet [] "doesNotExist" = none ∧
    ToolRegistry.execute [] "doesNotExist" (JsonValue.obj []) =
      (.toolError ("Tool " ++ String.mk (quoteWrap "doesNotExist") ++ " not found"), 0) :=
  ⟨rfl, c1_absent_tool_rejects [] "doesNotExist" (JsonValue.obj []) rfl⟩

/-- C3 counterexample: the claim says a thrown executor error is converted
into a Failure value and no exception escapes execute; on the code, the
error is wrapped and rethrown as a ToolError rejection, so an exception does
escape and no value is returned. -/
theorem c3_counterexample :
    (ToolRegistry.execute [bombTool] "bomb" (JsonValue.obj [])).1.isValue = false ∧
    (ToolRegistry.execute [bombTool] "bomb" (JsonValue.obj [])).1 =
      .toolError "Error executing tool \"bomb\": boom" ∧
    (ToolRegistry.execute [bombTool] "bomb" (JsonValue.obj [])).2 = 1 :=
  ⟨rfl, rfl, rfl⟩

/-- C3 amended: for every registered tool whose executor throws or rejects,
execute rejects with a ToolError: a non-ToolError error is wrapped with the
Error-executing-tool prefix, a thrown ToolError is rethrown unchanged.  The
rejection is the only way an exception leaves execute; it is not converted
into a returned Failure value. -/
theorem c3_thrown_becomes_toolerror (reg : List Tool) (name : String) (args : JsonValue)
    (tool : Tool) (m : String) (hget : regGet reg name = some tool) :
    (tool.execute args = .thrown m →
      ToolRegistry.execute reg name args =
        (.toolError ("Error executing tool " ++ String.mk (quoteWrap name) ++ ": " ++ m), 1)) ∧
    (tool.execute args = .thrownToolError m →
      ToolRegistry.execute reg name args = (.toolError m, 1)) := by
  unfold ToolRegistry.execute
  rw [hget]
  dsimp only
  constructor <;> intro h <;> rw [h]

/-- C3 witness: the amended statement evaluated on a throwing tool. -/
theorem c3_thrown_becomes_toolerror_witness :
    regGet [bombTool] "bomb" = some bombTool ∧
    (bombTool.execute (JsonValue.obj []) = .thrown "boom" →
      ToolRegistry.execute [bombTool] "bomb" (JsonValue.obj []) =
        (.toolError ("Error executing tool " ++ String.mk (quoteWrap "bomb") ++ ": " ++ "boom"),
         1)) :=
  ⟨rfl, (c3_thrown_becomes_toolerror [bombTool] "bomb" (JsonValue.obj []) bombTool "boom" rfl).1⟩

/-- C6: registering two tools of the same name leaves exactly one entry
under that name, holding the second definition unchanged; the first
registration into a registry without that name emits no warning and the
second emits one. -/
theorem c6_register_last_write_wins (reg : List Tool) (u1 u2 : Tool) (n : String)
    (h0 : regHas reg n = false) (h1 : u1.name = n) (h2 : u2.name = n) :
    (((ToolRegistry.register (ToolRegistry.register reg u1).1 u2).1.filter
        (fun t => t.name = n)).length = 1) ∧
    regGet (ToolRegistry.register (ToolRegistry.register reg u1).1 u2).1 n = some u2 ∧
    (ToolRegistry.register reg u1).2 = false ∧
    (ToolRegistry.register (ToolRegistry.register reg u1).1 u2).2 = true := by
  have hnames := regHas_false_forall h0
  have hstep1 : (ToolRegistry.register reg u1).1 = reg ++ [u1] := by
    unfold ToolRegistry.register regSet
    rw [h1, h0]
    simp
  have hhas2 : regHas (reg ++ [u1]) n = true := by
    unfold regHas
    rw [List.any_append]
    simp [h1]
  have hstep2 : (ToolRegistry.register (reg ++ [u1]) u2).1 = reg ++ [u2] := by
    unfold ToolRegistry.register regSet
    rw [h2, hhas2]
    simp only [if_true, List.map_append]
    rw [map_keep_names u2 hnames]
    simp [h1, h2]
  refine ⟨?_, ?_, ?_, ?_⟩
  · rw [hstep1, hstep2, List.filter_append]
    have hl : reg.filter (fun t => t.name = n) = [] := by
      rw [List.filter_eq_nil_iff]
      intro t ht
      simpa using hnames t ht
    rw [hl]
    simp [h2]
  · rw [hstep1, hstep2]
    unfold regGet
    rw [find?_append_of_none (List.find?_eq_none.mpr (fun t ht => by simpa using hnames t ht))]
    simp [h2]
  · unfold ToolRegistry.register
    rw [h1]
    exact h0
  · rw [hstep1]
    unfold ToolRegistry.register
    rw [h2]
    exact hhas2

/-- C6 witness: registering readFile twice into the empty registry. -/
theorem c6_register_last_write_wins_witness :
    regHas [] "readFile" = false ∧
    (((ToolRegistry.register (ToolRegistry.register [] tFirst).1 tSecond).1.filter
        (fun t => t.name = "readFile")).length = 1) ∧
    regGet (ToolRegistry.register (ToolRegistry.register [] tFirst).1 tSecond).1 "readFile" =
      some tSecond ∧
    (ToolRegistry.register [] tFirst).2 = false ∧
    (ToolRegistry.register (ToolRegistry.register [] tFirst).1 tSecond).2 = true :=
  ⟨rfl, c6_register_last_write_wins [] tFirst tSecond "readFile" rfl rfl rfl⟩

/-- C9: the gateway cannot distinguish explicit zero options from absent
ones; a zero temperature is replaced by the default 0.7 and a zero top p by
the default 0.9, because defaults are applied to every falsy value. -/
theorem c9_zero_options_indistinguishable (m : String) (o : ReqOpts) :
    (buildRequestData m (some { o with temperature := some 0 })).temperature = 7 / 10 ∧
    (buildRequestData m (some { o with topP := some 0 })).top_p = 9 / 10 ∧
    buildRequestData m (some { o with temperature := some 0, topP := some 0 }) =
      buildRequestData m (some { o with temperature := none, topP := none }) := by
  refine ⟨?_, ?_, ?_⟩ <;> simp [buildRequestData, jsOrNum]

/-- C4 counterexample: the claim says a candidate naming an unknown tool is
surfaced to the model as a Tool Error feedback message; on the code,
processToolCall on an empty registry appends no message at all, issues no
query and records no execution — the candidate is skipped with only a
console notice. -/
theorem c4_counterexample :
    (processToolCall c4State (JsonValue.str "doesNotExist") (JsonValue.obj [])).1.messages = [] ∧
    (processToolCall c4State (JsonValue.str "doesNotExist") (JsonValue.obj [])).1.queries = [] ∧
    (processToolCall c4State (JsonValue.str "doesNotExist") (JsonValue.obj [])).1.execTrace = [] ∧
    (processToolCall c4State (JsonValue.str "doesNotExist") (JsonValue.obj [])).2 = false :=
  ⟨rfl, rfl, rfl, rfl⟩

/-- C4 amended: a candidate whose name is absent from the registry at call
time is skipped without any change to the conversation: no Tool Error
message is appended, nothing executes, no follow-up query is issued, and no
exception is raised (the failure is only logged to the console), so the
candidate is indeed non-fatal but invisible to the model. -/
theorem c4_unknown_tool_skipped (st : AgentState) (name : String) (params : JsonValue)
    (h : regHas st.registry name = false) :
    processToolCall st (.str name) params = (st, false) := by
  unfold processToolCall
  simp [h]

/-- C4 witness: the amended statement evaluated on the empty registry. -/
theorem c4_unknown_tool_skipped_witness :
    regHas c4State.registry "doesNotExist" = false ∧
    processToolCall c4State (.str "doesNotExist") (JsonValue.obj []) = (c4State, false) :=
  ⟨rfl, c4_unknown_tool_skipped c4State "doesNotExist" (JsonValue.obj []) rfl⟩

set_option maxRecDepth 40000 in
/-- C5 counterexample: the claim says the carried serialized result is at
most 500 characters; on the code, a serialization longer than 500 characters
is cut to 490 characters plus the fifteen-character truncation suffix, so
the Tool Result message carries exactly 505 characters of serialized result,
which exceeds 500. -/
theorem c5_counterexample :
    (condenseResult (jsonStringify bigData)).length = 505 ∧
    505 > 500 ∧
    (processToolCall agentStBig (JsonValue.str "bigTool") (JsonValue.obj [])).1.messages.map
        Message.content =
      [ackMessage "bigTool",
       "Tool Result (bigTool):\n\n" ++ condenseResult (jsonStringify bigData),
       "done"] :=
  ⟨rfl, by omega, rfl⟩

/-- C5 amended: after every successful tool execution that produced data, a
user message with the Tool Result prefix and the serialized result is
appended (between an assistant acknowledgment and the follow-up answer);
serializations longer than 500 characters are replaced by their first 490
characters plus the truncation suffix, making the carried serialized result
exactly 505 characters in that case — bounded by 505, not 500. -/
theorem c5_tool_result_message (st : AgentState) (name : String) (args : JsonValue)
    (tool : Tool) (v : JsonValue) (errv : Option String) (t : String)
    (hget : regGet st.registry name = some tool)
    (hname : name ≠ "")
    (hexec : tool.execute args = .ok ⟨true, some v, errv⟩)
    (horacle : st.oracle st.qIdx = .ok t) :
    (processToolCall st (.str name) args).1.messages =
      st.messages ++ [⟨.assistant, ackMessage name⟩,
        ⟨.user, "Tool Result (" ++ name ++ "):\n\n" ++ condenseResult (jsonStringify v)⟩,
        ⟨.assistant, t⟩] ∧
    (processToolCall st (.str name) args).2 = false ∧
    ((jsonStringify v).length > 500 → (condenseResult (jsonStringify v)).length = 505) ∧
    (¬ (jsonStringify v).length > 500 → condenseResult (jsonStringify v) = jsonStringify v) := by
  have hhas := regHas_of_get hget
  have hex : (ToolRegistry.execute st.registry name args).1 = .value (some v) := by
    unfold ToolRegistry.execute
    rw [hget]
    dsimp only
    rw [hexec]
    rfl
  unfold processToolCall
  simp only [hhas, Bool.not_true, Bool.or_false, hname, hex]
  simp only [Option.map_some, issueQuery, pushMsg]
  rw [horacle]
  refine ⟨by simp, rfl, fun h => condenseResult_of_gt h, fun h => condenseResult_of_le h⟩

/-- C5 witness: the amended statement evaluated on a tool whose result
serializes to 501 characters. -/
theorem c5_tool_result_message_witness :
    regGet agentStBig.registry "bigTool" = some bigTool ∧
    ("bigTool" : String) ≠ "" ∧
    bigTool.execute (JsonValue.obj []) = .ok ⟨true, some bigData, none⟩ ∧
    agentStBig.oracle agentStBig.qIdx = .ok "done" ∧
    ((processToolCall agentStBig (.str "bigTool") (JsonValue.obj [])).1.messages =
      agentStBig.messages ++ [⟨.assistant, ackMessage "bigTool"⟩,
        ⟨.user, "Tool Result (" ++ "bigTool" ++ "):\n\n" ++
          condenseResult (jsonStringify bigData)⟩,
        ⟨.assistant, "done"⟩] ∧
    (processToolCall agentStBig (.str "bigTool") (JsonValue.obj [])).2 = false ∧
    ((jsonStringify bigData).length > 500 →
      (condenseResult (jsonStringify bigData)).length = 505) ∧
    (¬ (jsonStringify bigData).length > 500 →
      condenseResult (jsonStringify bigData) = jsonStringify bigData)) :=
  ⟨rfl, by decide, rfl, rfl,
    c5_tool_result_message agentStBig "bigTool" (JsonValue.obj []) bigTool bigData none "done"
      rfl (by decide) rfl rfl⟩

set_option maxRecDepth 100000 in
/-- C2 counterexample: the claim says all well-formed tool calls in one
response are recovered and executed; each of the two fenced blocks alone
yields its call, yet the response containing both executes only the first
(listDir) and never the second (readFile), because every extraction method
returns after its first successful execution. -/
theorem c2_counterexample :
    (processToolCallsInText agentSt0 c2Block1).1.execTrace =
      [("listDir", JsonValue.obj [("path", JsonValue.str ".")])] ∧
    (processToolCallsInText agentSt0 c2Block2).1.execTrace =
      [("readFile", JsonValue.obj [("path", JsonValue.str "x.ts")])] ∧
    (processToolCallsInText agentSt0 c2Text).1.execTrace =
      [("listDir", JsonValue.obj [("path", JsonValue.str ".")])] ∧
    (processToolCallsInText agentSt0 c2Text).2 = true :=
  ⟨rfl, rfl, rfl, rfl⟩

/-- C2 amended: when the follow-up queries issued after an execution
succeed, the extraction-and-execution step over one assembled response
executes at most one tool call — the first candidate recovered by the
strategy chain — and later well-formed calls in the same response are not
executed.  (Sequential, non-overlapping execution holds trivially: at most
one call runs.  When a follow-up query itself rejects, the swallowed
rejection can re-enter the loops and execute further calls.) -/
theorem c2_first_call_only (st : AgentState) (text : String) (h : okOracleP st.oracle) :
    (processToolCallsInText st text).1.execTrace.length ≤ st.execTrace.length + 1 :=
  pipeline_ok text h

set_option maxRecDepth 100000 in
/-- C2 witness: the amended bound evaluated on the two-call response. -/
theorem c2_first_call_only_witness :
    okOracleP agentSt0.oracle ∧
    (processToolCallsInText agentSt0 c2Text).1.execTrace.length ≤
      agentSt0.execTrace.length + 1 :=
  ⟨fun _ => rfl, c2_first_call_only agentSt0 c2Text (fun _ => rfl)⟩

/-- C7 counterexample: the claim says the resolved text equals the
concatenation of all delivered chunks; on the code, a content event arriving
after the done event is still delivered to the callback but is not part of
the already-resolved text, so the query resolves with a while the delivered
chunks concatenate to ab. -/
theorem c7_counterexample :
    (runStream [cex7chunk] false).settled = some (Except.ok "a") ∧
    (runStream [cex7chunk] false).delivered = ["a", "b"] ∧
    concatList ["a", "b"] = "ab" ∧ ("a" : String) ≠ "ab" :=
  ⟨rfl, rfl, rfl, by decide⟩

/-- C7 amended: chunks are delivered to the callback in arrival order (the
delivered list is built in processing order), and the text a successfully
completed query resolves with is the concatenation of the chunks delivered
up to the moment of resolution — a prefix of all delivered chunks, which is
all of them unless content arrives after the first done event. -/
theorem c7_resolved_is_delivered_prefix (chunks : List String) (streamError : Bool)
    (s : String) (h : (runStream chunks streamError).settled = some (Except.ok s)) :
    ∃ p q, (runStream chunks streamError).delivered = p ++ q ∧ s = concatList p :=
  (streamInv_runStream chunks streamError).2.2 s h

/-- C7 witness: a stream whose done event is last resolves with the full
concatenation. -/
theorem c7_resolved_is_delivered_prefix_witness :
    (runStream w7chunks false).settled = some (Except.ok "hello") ∧
    ∃ p q, (runStream w7chunks false).delivered = p ++ q ∧ "hello" = concatList p :=
  ⟨rfl, c7_resolved_is_delivered_prefix w7chunks false "hello" rfl⟩

/-- C8: one user turn issues at most one directed (json-format, forced
structure) escalation query, and the turn function is total, so the loop
cannot run forever; when the escalation also fails, its failure is caught
internally and the turn ends. -/
theorem c8_escalation_at_most_once (st : AgentState) (input : String) :
    dirCount (processInput st input).queries ≤ dirCount st.queries + 1 := by
  unfold processInput
  by_cases h : strTrim input = ""
  · simp only [h, if_true]
    exact Nat.le_succ _
  · simp only [h, if_false]
    have := getAIResponse_queries (pushMsg st .user input)
    simpa [pushMsg] using this

/-- C10: when the stream ends without any done event, the query resolves
with the accumulated text exactly when at least one nonempty content chunk
was delivered, and rejects with the no-response error exactly when the
accumulated text is empty. -/
theorem c10_end_without_done (chunks : List String)
    (h : ∀ e ∈ allEvents chunks, isDoneEvent e = false) :
    ((runStream chunks false).settled =
      some (if (runStream chunks false).fullResponse = ""
        then Except.error "Stream ended without response"
        else Except.ok ((runStream chunks false).fullResponse))) ∧
    ((runStream chunks false).fullResponse ≠ "" ↔
      (runStream chunks false).delivered ≠ []) := by
  have hs := fold_settled_of_notDone h
  obtain ⟨h1, h2, _⟩ := streamInv_fold chunks
  unfold runStream
  simp only [Bool.false_eq_true, if_false]
  by_cases hf : (chunks.foldl processChunk initStream).fullResponse = ""
  · simp only [hf, ne_eq, not_true_eq_false, if_false]
    unfold settleReject
    rw [hs]
    have hdel : (chunks.foldl processChunk initStream).delivered = [] := by
      by_contra hne
      exact (concatList_ne_empty h2 hne) (h1.symm.trans hf)
    constructor
    · simp [hf]
    · simp [hf, hdel]
  · simp only [hf, ne_eq, not_false_eq_true, if_true]
    unfold settleResolve
    dsimp only
    rw [hs]
    have hdel : (chunks.foldl processChunk initStream).delivered ≠ [] := by
      intro hd
      exact hf (h1.trans (by rw [hd]; rfl))
    constructor
    · simp [hf]
    · simp [hf, hdel]

/-- C10 witness: a stream of two content events and no done event resolves
with the accumulated text. -/
theorem c10_end_without_done_witness :
    (∀ e ∈ allEvents w10chunks, isDoneEvent e = false) ∧
    ((runStream w10chunks false).settled =
      some (if (runStream w10chunks false).fullResponse = ""
        then Except.error "Stream ended without response"
        else Except.ok ((runStream w10chunks false).fullResponse))) ∧
    ((runStream w10chunks false).fullResponse ≠ "" ↔
      (runStream w10chunks false).delivered ≠ []) :=
  ⟨by decide, c10_end_without_done w10chunks (by decide)⟩
